import Mathlib

/-!
Verification of the appcast generator (`.github/scripts/generate_appcast.py`).

The script is embedded shallowly: each Python function becomes a Lean
definition operating on explicit data (JSON dictionaries become structures
with `Option` fields for keys that may be missing). The network fetch is not
modelled; `generate_appcast` is parameterised by the list of releases the
fetch would have returned, which is the only way the fetch's result is used.

Python regular-expression substitutions (`re.sub` with lazy groups) are
embedded as character-list scanners that reproduce the engine's behaviour:
scan left to right, at each position attempt the (lazy, minimal) match,
replace and continue after the replacement, otherwise emit one character and
retry at the next position. `[\w]` and `str.strip` are modelled for the
ASCII range (`Char.isAlphanum`/`Char.isWhitespace`); no claim exercises
non-ASCII word characters or exotic whitespace.

Scanners that restart after a successful replacement take a fuel argument;
every step consumes at least one input character, so fuel equal to the input
length is always sufficient, and all definitions stay structurally recursive
and kernel-reducible.
-/

namespace XKeyAppcast

/-- One release asset, as in the GitHub API JSON (`name`,
`browser_download_url`, `size`). -/
structure Asset where
  name : String
  browser_download_url : String
  size : Nat
deriving DecidableEq, Repr

/-- One release, as in the GitHub API JSON. `body`, `published_at` and
`created_at` may be missing (`none`); `assets` missing is modelled as `[]`,
matching `release.get('assets', [])`. `draft`/`prerelease` are the boolean
flags tested by truthiness in the script. -/
structure Release where
  tag_name : String
  draft : Bool
  prerelease : Bool
  body : Option String
  html_url : String
  published_at : Option String
  created_at : Option String
  assets : List Asset
deriving DecidableEq, Repr

/-- The enclosure sub-record of a generated appcast item. -/
structure Enclosure where
  url : String
  version : String
  length : Nat
  type : String
  edSignature : Option String
deriving DecidableEq, Repr

/-- A generated appcast item (the dictionary built in
`generate_appcast_item`). `pubDate` is `Option` because both timestamp keys
may be missing from the release. -/
structure AppcastItem where
  title : String
  version : String
  url : String
  releaseNotesHTML : String
  pubDate : Option String
  minimumSystemVersion : String
  enclosure : Enclosure
deriving DecidableEq, Repr

/-- An item of a previously generated appcast document, read back from disk.
All keys may be missing: `version` may be absent (the case behind the
`KeyError` claim), `enclosure` may be absent, and an enclosure may lack
`edSignature`. -/
structure PriorEnclosure where
  edSignature : Option String
deriving DecidableEq, Repr

structure PriorItem where
  version : Option String
  enclosure : Option PriorEnclosure
deriving DecidableEq, Repr

/-- A previously generated appcast document; the `items` key may be missing
(`'items' in existing_appcast`). -/
structure PriorAppcast where
  items : Option (List PriorItem)
deriving DecidableEq, Repr

/-- The output appcast document. -/
structure Appcast where
  title : String
  description : String
  language : String
  items : List AppcastItem
deriving DecidableEq, Repr

/-! ## Markdown conversion (`markdown_to_html`) -/

/-- Split a character list at newline characters; `splitLines [] = [[]]`,
matching Python's `''.split('\n') == ['']` and generally `s.split('\n')`. -/
def splitLines : List Char → List (List Char)
  | [] => [[]]
  | c :: rest =>
    if c == '\n' then [] :: splitLines rest
    else
      match splitLines rest with
      | [] => [[c]]
      | l :: ls => (c :: l) :: ls

/-- Join lines with newline characters: `'\n'.join(...)`. -/
def joinLines (ls : List (List Char)) : List Char :=
  List.intercalate ['\n'] ls

/-- One line of a header substitution `re.sub(r'^P (.*?)$', r'<t>\1</t>',
html, flags=re.MULTILINE)`: since `.` does not cross a newline and `$` is
anchored at the line end, the lazy group captures exactly the rest of the
line, so the pass rewrites a line starting with the prefix and leaves every
other line unchanged. -/
def lineHeader (pfx opn cls line : List Char) : List Char :=
  if pfx.isPrefixOf line then opn ++ line.drop pfx.length ++ cls else line

/-- A whole-text header pass (one `re.sub(..., flags=re.MULTILINE)` call):
the replacement inserts no newline, so the pass is the per-line map. -/
def headerPass (pfx opn cls : List Char) (s : List Char) : List Char :=
  joinLines ((splitLines s).map (lineHeader pfx opn cls))

/-- The three header substitutions of `markdown_to_html`, in source order:
`### ` then `## ` then `# `. -/
def headerPasses (s : List Char) : List Char :=
  let h := headerPass "### ".data "<h3>".data "</h3>".data s
  let h := headerPass "## ".data "<h2>".data "</h2>".data h
  headerPass "# ".data "<h1>".data "</h1>".data h

/-- Lazy search for a closing delimiter: `splitClose cls l = some (inner,
rest)` when `l = inner ++ cls ++ rest` with `inner` nonempty, free of
newlines (a `.` in a pattern without `re.DOTALL`), and minimal; `none` when
no such split exists. This is exactly how `(.+?)` followed by the literal
`cls` matches. -/
def splitClose (cls : List Char) : List Char → Option (List Char × List Char)
  | [] => none
  | c :: rest =>
    if c == '\n' then none
    else if cls.isPrefixOf rest then some ([c], rest.drop cls.length)
    else
      match splitClose cls rest with
      | some (inner, r) => some (c :: inner, r)
      | none => none

/-- Lazy search with `re.DOTALL` and a possibly-empty group (`(.*?)`):
minimal split `l = inner ++ cls ++ rest`, `inner` unrestricted. -/
def splitCloseDotall (cls : List Char) : List Char → Option (List Char × List Char)
  | [] => none
  | c :: rest =>
    if cls.isPrefixOf (c :: rest) then some ([], (c :: rest).drop cls.length)
    else
      match splitCloseDotall cls rest with
      | some (inner, r) => some (c :: inner, r)
      | none => none

/-- One emphasis / inline-code substitution pass, e.g.
`re.sub(r'\*\*(.+?)\*\*', r'<strong>\1</strong>', html)`: scan left to
right; where the delimiter occurs and a lazy close is found, emit
`pre ++ inner ++ post` and continue after the close, otherwise emit one
character and retry at the next position. Fuel ≥ input length suffices. -/
def subEmph (delim pre post : List Char) : Nat → List Char → List Char
  | _, [] => []
  | 0, l => l
  | fuel + 1, c :: rest =>
    if delim.isPrefixOf (c :: rest) then
      match splitClose delim ((c :: rest).drop delim.length) with
      | some (inner, r) => pre ++ inner ++ post ++ subEmph delim pre post fuel r
      | none => c :: subEmph delim pre post fuel rest
    else c :: subEmph delim pre post fuel rest

/-- The link substitution `re.sub(r'\[(.+?)\]\((.+?)\)',
r'<a href="\2">\1</a>', html)`. The first lazy group stops at the first
`](`; if no `)` (reachable without a newline) follows, the whole match at
this position fails — later `](` candidates cannot succeed either, since the
search space for `)` only shrinks and both groups reject newlines. -/
def subLink : Nat → List Char → List Char
  | _, [] => []
  | 0, l => l
  | fuel + 1, c :: rest =>
    if c == '[' then
      match splitClose "](".data rest with
      | some (label, r1) =>
        match splitClose ")".data r1 with
        | some (tgt, r2) =>
          "<a href=\"".data ++ tgt ++ "\">".data ++ label ++ "</a>".data ++ subLink fuel r2
        | none => c :: subLink fuel rest
      | none => c :: subLink fuel rest
    else c :: subLink fuel rest

/-- A word character for `[\w]` (ASCII model). -/
def isWordChar (c : Char) : Bool := c.isAlphanum || c == '_'

/-- The fenced-code-block substitution `re.sub(r'```[\w]*\n(.*?)\n```',
r'<pre><code>\1</code></pre>', html, flags=re.DOTALL)`. The greedy `[\w]*`
needs no backtracking: a shorter word run is followed by a word character,
never by the required newline. -/
def subCodeBlock : Nat → List Char → List Char
  | _, [] => []
  | 0, l => l
  | fuel + 1, c :: rest =>
    if "```".data.isPrefixOf (c :: rest) then
      match ((c :: rest).drop 3).dropWhile isWordChar with
      | '\n' :: r1 =>
        match splitCloseDotall "\n```".data r1 with
        | some (inner, r2) =>
          "<pre><code>".data ++ inner ++ "</code></pre>".data ++ subCodeBlock fuel r2
        | none => c :: subCodeBlock fuel rest
      | _ => c :: subCodeBlock fuel rest
    else c :: subCodeBlock fuel rest

/-- Python `str.strip()` on a line (ASCII whitespace model). -/
def stripChars (l : List Char) : List Char :=
  ((l.dropWhile Char.isWhitespace).reverse.dropWhile Char.isWhitespace).reverse

/-- `re.match(r'^[\*\-\+] ', line)`: the line starts with `*`, `-` or `+`
followed by a space. -/
def isUlLine (line : List Char) : Bool :=
  match line with
  | c :: ' ' :: _ => c == '*' || c == '-' || c == '+'
  | _ => false

/-- `re.match(r'^\d+\. ', line)`: length of the matched prefix (digits plus
`". "`), or `none`. Backtracking the greedy `\d+` cannot help: any shorter
digit run is followed by a digit, not by `.`. -/
def olPrefixLength (line : List Char) : Option Nat :=
  let ds := line.takeWhile Char.isDigit
  if ds.isEmpty then none
  else
    match line.drop ds.length with
    | '.' :: ' ' :: _ => some (ds.length + 2)
    | _ => none

/-- The list-grouping scan of `markdown_to_html` (the `for line in lines`
loop with `in_ul` / `in_ol` state and the closing appends after the loop). -/
def listPass : List (List Char) → Bool → Bool → List (List Char)
  | [], inUl, inOl =>
    (if inUl then ["</ul>".data] else []) ++ (if inOl then ["</ol>".data] else [])
  | line :: rest, inUl, inOl =>
    if isUlLine line then
      (if inUl then [] else ["<ul>".data]) ++
        ("<li>".data ++ stripChars (line.drop 2) ++ "</li>".data) :: listPass rest true inOl
    else
      match olPrefixLength line with
      | some n =>
        (if inOl then [] else ["<ol>".data]) ++
          ("<li>".data ++ stripChars (line.drop n) ++ "</li>".data) :: listPass rest inUl true
      | none =>
        (if inUl then ["</ul>".data] else []) ++
          (if inOl then ["</ol>".data] else []) ++
          (if (stripChars line).isEmpty then [] else
            ["<p>".data ++ line ++ "</p>".data]) ++
          listPass rest false false

/-- All substitution passes of `markdown_to_html` before the list scan, in
source order: headers, `***`, `**`, `*`, `__`, `_`, links, fenced code
blocks, inline code. -/
def inlinePasses (s : List Char) : List Char :=
  let h := headerPasses s
  let h := subEmph "***".data "<strong><em>".data "</em></strong>".data h.length h
  let h := subEmph "**".data "<strong>".data "</strong>".data h.length h
  let h := subEmph "*".data "<em>".data "</em>".data h.length h
  let h := subEmph "__".data "<strong>".data "</strong>".data h.length h
  let h := subEmph "_".data "<em>".data "</em>".data h.length h
  let h := subLink h.length h
  let h := subCodeBlock h.length h
  subEmph "`".data "<code>".data "</code>".data h.length h

/-- The lines produced by the list-grouping scan for an input string. -/
def mdLines (s : String) : List (List Char) :=
  listPass (splitLines (inlinePasses s.data)) false false

/-- `markdown_to_html`: substitution passes, list grouping, and the final
`'\n'.join(result)`. -/
def markdown_to_html (s : String) : String :=
  ⟨joinLines (mdLines s)⟩

/-! ## Asset selection and item generation -/

/-- `name.endswith('.dmg')`. -/
def strEndsWith (s suf : String) : Bool := suf.data.isSuffixOf s.data

/-- `sub in s` (substring containment). -/
def strContainsSub (s sub : String) : Bool :=
  go s.data
where
  go : List Char → Bool
    | [] => sub.data.isPrefixOf []
    | c :: rest => sub.data.isPrefixOf (c :: rest) || go rest

/-- `find_dmg_asset`: the asset named exactly `XKey.dmg` (first such, in
list order) if present, otherwise the first asset whose name ends with
`.dmg` and does not contain `IM`, otherwise `none`. -/
def find_dmg_asset (assets : List Asset) : Option Asset :=
  match assets.find? (fun a => a.name == "XKey.dmg") with
  | some a => some a
  | none => assets.find? (fun a => strEndsWith a.name ".dmg" && ! strContainsSub a.name "IM")

/-- `release['tag_name'].lstrip('v')`: Python `lstrip` removes every leading
character from the given set, so every leading `v` is dropped. -/
def lstripV (s : String) : String := ⟨s.data.dropWhile (· == 'v')⟩

/-- The fixed link paragraph appended to non-empty release notes. -/
def githubLinkPara (url : String) : String :=
  "\n<p><a href=\"" ++ url ++ "\">Xem chi tiết trên GitHub</a></p>"

/-- The release-notes HTML of an item: the body (or `''` when the `body` key
is missing) rendered if non-empty — `markdown_to_html(release_notes) if
release_notes else ''` — with the GitHub link paragraph appended when the
rendered HTML is non-empty. -/
def releaseNotesOf (release : Release) : String :=
  let release_notes := release.body.getD ""
  let release_notes_html :=
    if release_notes = "" then "" else markdown_to_html release_notes
  if release_notes_html = "" then release_notes_html
  else release_notes_html ++ githubLinkPara release.html_url

/-- The item dictionary built by `generate_appcast_item` once the draft /
prerelease and DMG checks have passed. -/
def mkItem (release : Release) (dmg : Asset) : AppcastItem :=
  { title := "Version " ++ lstripV release.tag_name
    version := lstripV release.tag_name
    url := release.html_url
    releaseNotesHTML := releaseNotesOf release
    pubDate :=
      match release.published_at with
      | some s => some s
      | none => release.created_at
    minimumSystemVersion := "12.0"
    enclosure :=
      { url := dmg.browser_download_url
        version := lstripV release.tag_name
        length := dmg.size
        type := "application/octet-stream"
        edSignature := none } }

/-- `generate_appcast_item`: skip drafts and prereleases, skip releases
without a resolvable DMG asset, otherwise build the item dictionary. The
`edSignature` field is never set here (`none` in the enclosure model);
`pub_date` is `release.get('published_at', release.get('created_at'))`. -/
def generate_appcast_item (release : Release) : Option AppcastItem :=
  if release.draft || release.prerelease then none
  else
    match find_dmg_asset release.assets with
    | none => none
    | some dmg => some (mkItem release dmg)

/-! ## Signature map and full document generation -/

/-- One Python dict assignment `m[k] = v`, for a dict observed only through
`k in m` and `m[k]`: the new binding shadows any earlier one. -/
def dictInsert (m : List (String × String)) (k v : String) : List (String × String) :=
  (k, v) :: m

/-- Dict lookup `m.get(k)` / `m[k]` for the shadowing representation. -/
def dictFind (m : List (String × String)) (k : String) : Option String :=
  (m.find? (fun p => p.1 == k)).map (·.2)

/-- The `for item in existing_appcast['items']` loop building
`signature_map`. A prior item contributes when it has an `enclosure` key
whose value has an `edSignature` key; for a contributing item the script
reads `item['version']` unconditionally, so a contributing item without a
`version` key raises `KeyError`, modelled as `Except.error ()`. -/
def buildSignatureMap : List PriorItem → List (String × String) →
    Except Unit (List (String × String))
  | [], m => .ok m
  | it :: rest, m =>
    match it.enclosure with
    | some enc =>
      match enc.edSignature with
      | some sig =>
        match it.version with
        | some v => buildSignatureMap rest (dictInsert m v sig)
        | none => .error ()
      | none => buildSignatureMap rest m
    | none => buildSignatureMap rest m

/-- The signature map of `generate_appcast`: empty when no prior appcast was
supplied or it has no `items` key. -/
def sigMapOf (existing : Option PriorAppcast) : Except Unit (List (String × String)) :=
  match existing with
  | some ex =>
    match ex.items with
    | some pis => buildSignatureMap pis []
    | none => .ok []
  | none => .ok []

/-- Restoring a recovered signature into a fresh item (`if version in
signature_map: item['enclosure']['edSignature'] = signature_map[version]`). -/
def withSig (m : List (String × String)) (item : AppcastItem) : AppcastItem :=
  match dictFind m item.version with
  | some sig => { item with enclosure := { item.enclosure with edSignature := some sig } }
  | none => item

/-- The `for release in releases` loop of `generate_appcast`: build an item
per release, drop the releases that yield none, restore signatures, keep the
order of the release list. -/
def buildItems (m : List (String × String)) : List Release → List AppcastItem
  | [] => []
  | r :: rest =>
    match generate_appcast_item r with
    | some item => withSig m item :: buildItems m rest
    | none => buildItems m rest

/-- Python string `<`: lexicographic comparison of the code-point
sequences. (This coincides with Lean's `String` order; a helper theorem
below proves the agreement.) -/
def charListLt : List Char → List Char → Bool
  | [], [] => false
  | [], _ :: _ => true
  | _ :: _, [] => false
  | a :: as, b :: bs =>
    if a < b then true
    else if b < a then false
    else charListLt as bs

/-- Python `<` on the `pubDate` sort keys. Both timestamp keys missing gives
`None`; CPython raises `TypeError` when it actually compares `None` with a
string, which no theorem below relies on — the `none` rows of this table are
an arbitrary total completion used only to keep the function total. -/
def pubLt (a b : Option String) : Bool :=
  match a, b with
  | some s, some t => charListLt s.data t.data
  | none, some _ => true
  | _, none => false

/-- Stable insertion into a descending-sorted list: the new element goes
before the first element strictly below it, hence after every element with
an equal or greater key — the placement a stable descending sort gives. -/
def insertDesc (x : AppcastItem) : List AppcastItem → List AppcastItem
  | [] => [x]
  | y :: ys => if pubLt x.pubDate y.pubDate then y :: insertDesc x ys else x :: y :: ys

/-- `items.sort(key=lambda x: x['pubDate'], reverse=True)`: a stable
descending sort by the `pubDate` string. A stable sort is determined by the
key order, so this insertion sort computes the same list as CPython's
timsort. -/
def sortDesc (l : List AppcastItem) : List AppcastItem :=
  l.foldr insertDesc []

/-- `if items: items = [items[0]]`. -/
def truncateLatest : List AppcastItem → List AppcastItem
  | [] => []
  | x :: _ => [x]

/-- `generate_appcast`, parameterised by the release list the HTTP fetch
returned (the fetch itself, being a network call, is not modelled; its
result is used only as this list). An uncaught `KeyError` from the
signature-map loop aborts the whole generation. -/
def generate_appcast (releases : List Release) (existing_appcast : Option PriorAppcast) :
    Except Unit Appcast :=
  match sigMapOf existing_appcast with
  | .error e => .error e
  | .ok m =>
    .ok
      { title := "XKey Updates"
        description := "XKey - Vietnamese Input Method for macOS"
        language := "vi"
        items := truncateLatest (sortDesc (buildItems m releases)) }

/-! ## Spec-side definitions used to state claims -/

/-- The `(version, edSignature)` pairs of the prior document's items that
possess an enclosure with a signature together with a version key — the
entries the spec says are carried forward. -/
def priorSigPairs (pis : List PriorItem) : List (String × String) :=
  pis.filterMap fun it =>
    match it.enclosure with
    | some enc =>
      match enc.edSignature, it.version with
      | some sig, some v => some (v, sig)
      | _, _ => none
    | none => none

/-- The signature recovered for a version: that of the last prior item whose
version matches exactly and which records a signature (later duplicates
overwrite earlier ones in the Python dict) — scanning the carried-forward
pairs from the end, the first one whose version matches. -/
def lastSigFor (pis : List PriorItem) (v : String) : Option String :=
  (((priorSigPairs pis).reverse).find? (fun p => p.1 == v)).map (·.2)

/-- Equality of `Except` results is decidable; used only to evaluate the
generator on concrete inputs in witnesses. -/
instance exceptDecEq {ε α : Type} [DecidableEq ε] [DecidableEq α] :
    DecidableEq (Except ε α)
  | .ok x, .ok y =>
    if h : x = y then .isTrue (by rw [h]) else .isFalse (by intro he; cases he; exact h rfl)
  | .error x, .error y =>
    if h : x = y then .isTrue (by rw [h]) else .isFalse (by intro he; cases he; exact h rfl)
  | .ok _, .error _ => .isFalse (by intro he; cases he)
  | .error _, .ok _ => .isFalse (by intro he; cases he)

/-! ## Concrete inputs used by witnesses and counterexamples -/

/-- A release asset named as the shipped installer. -/
def demoAsset : Asset :=
  { name := "XKey.dmg", browser_download_url := "https://example.com/XKey.dmg", size := 1000 }

/-- A plain published release with the given tag and publish date. -/
def demoRelease (tag pd : String) : Release :=
  { tag_name := tag, draft := false, prerelease := false, body := none
    html_url := "https://example.com/rel", published_at := some pd, created_at := none
    assets := [demoAsset] }

/-- Three qualifying releases with pairwise distinct publish dates. -/
def demoReleases : List Release :=
  [demoRelease "v1.0.0" "2024-01-01T00:00:00Z",
   demoRelease "v2.0.0" "2024-03-01T00:00:00Z",
   demoRelease "v1.5.0" "2024-02-01T00:00:00Z"]

/-- The document `generate_appcast` produces for `demoReleases` with no
prior appcast: only the newest release survives. -/
def demoAppcast : Appcast :=
  { title := "XKey Updates"
    description := "XKey - Vietnamese Input Method for macOS"
    language := "vi"
    items :=
      [{ title := "Version 2.0.0", version := "2.0.0", url := "https://example.com/rel"
         releaseNotesHTML := "", pubDate := some "2024-03-01T00:00:00Z"
         minimumSystemVersion := "12.0"
         enclosure :=
           { url := "https://example.com/XKey.dmg", version := "2.0.0", length := 1000
             type := "application/octet-stream", edSignature := none } }] }

/-- A draft release (with a perfectly good asset). -/
def draftRelease : Release :=
  { tag_name := "v9.9.9", draft := true, prerelease := false, body := none
    html_url := "https://example.com/rel", published_at := some "2024-01-01T00:00:00Z"
    created_at := none, assets := [demoAsset] }

/-- A release whose tag has two leading `v` characters. -/
def relVV : Release := demoRelease "vv1.2.3" "2024-01-01T00:00:00Z"

/-- A release with no `published_at` key and only a creation timestamp. -/
def relNoPub : Release :=
  { tag_name := "v1.0.0", draft := false, prerelease := false, body := none
    html_url := "https://example.com/rel", published_at := none
    created_at := some "2023-12-31T00:00:00Z", assets := [demoAsset] }

/-- A prior appcast recording a signature for version `1.0.0`. -/
def priorABC : PriorAppcast :=
  { items := some [{ version := some "1.0.0", enclosure := some { edSignature := some "ABC" } }] }

/-- A prior appcast with two items for the same version and different
signatures. -/
def priorDup : PriorAppcast :=
  { items := some
      [{ version := some "1.0.0", enclosure := some { edSignature := some "A" } },
       { version := some "1.0.0", enclosure := some { edSignature := some "B" } }] }

/-- A prior appcast whose single item records a signature but has no
`version` key. -/
def priorBad : PriorAppcast :=
  { items := some [{ version := none, enclosure := some { edSignature := some "S" } }] }

/-- A qualifying release for version `1.0.0`. -/
def demoRelease100 : Release := demoRelease "v1.0.0" "2024-01-01T00:00:00Z"

/-- The document generated from `demoRelease100` against `priorDup`: the
surviving item carries the signature of the *last* duplicate prior entry. -/
def dupAppcast : Appcast :=
  { title := "XKey Updates"
    description := "XKey - Vietnamese Input Method for macOS"
    language := "vi"
    items :=
      [{ title := "Version 1.0.0", version := "1.0.0", url := "https://example.com/rel"
         releaseNotesHTML := "", pubDate := some "2024-01-01T00:00:00Z"
         minimumSystemVersion := "12.0"
         enclosure :=
           { url := "https://example.com/XKey.dmg", version := "1.0.0", length := 1000
             type := "application/octet-stream", edSignature := some "B" } }] }

/-- The single item generated from `demoRelease100` against `priorABC`. -/
def abcItem : AppcastItem :=
  { title := "Version 1.0.0", version := "1.0.0", url := "https://example.com/rel"
    releaseNotesHTML := "", pubDate := some "2024-01-01T00:00:00Z"
    minimumSystemVersion := "12.0"
    enclosure :=
      { url := "https://example.com/XKey.dmg", version := "1.0.0", length := 1000
        type := "application/octet-stream", edSignature := some "ABC" } }

/-- The document generated from `demoRelease100` against `priorABC`. -/
def abcAppcast : Appcast :=
  { title := "XKey Updates"
    description := "XKey - Vietnamese Input Method for macOS"
    language := "vi"
    items := [abcItem] }

/-- The item `generate_appcast_item` builds for `relVV`. -/
def relVVItem : AppcastItem :=
  { title := "Version 1.2.3", version := "1.2.3", url := "https://example.com/rel"
    releaseNotesHTML := "", pubDate := some "2024-01-01T00:00:00Z"
    minimumSystemVersion := "12.0"
    enclosure :=
      { url := "https://example.com/XKey.dmg", version := "1.2.3", length := 1000
        type := "application/octet-stream", edSignature := none } }

/-- The item `generate_appcast_item` builds for `relNoPub`. -/
def relNoPubItem : AppcastItem :=
  { title := "Version 1.0.0", version := "1.0.0", url := "https://example.com/rel"
    releaseNotesHTML := "", pubDate := some "2023-12-31T00:00:00Z"
    minimumSystemVersion := "12.0"
    enclosure :=
      { url := "https://example.com/XKey.dmg", version := "1.0.0", length := 1000
        type := "application/octet-stream", edSignature := none } }

/-! ## Inversion and structural lemmas -/

theorem generate_appcast_item_some {r : Release} {i : AppcastItem}
    (h : generate_appcast_item r = some i) :
    r.draft = false ∧ r.prerelease = false ∧
      ∃ dmg, find_dmg_asset r.assets = some dmg ∧ i = mkItem r dmg := by
  unfold generate_appcast_item at h
  by_cases hd : (r.draft || r.prerelease) = true
  · simp [hd] at h
  · rw [if_neg hd] at h
    simp only [Bool.or_eq_true, not_or, Bool.not_eq_true] at hd
    cases hf : find_dmg_asset r.assets with
    | none => rw [hf] at h; cases h
    | some dmg =>
      rw [hf] at h
      exact ⟨hd.1, hd.2, dmg, rfl, (Option.some.inj h).symm⟩

theorem takeWhile_v_replicate (l : List Char) :
    ∃ k, l.takeWhile (· == 'v') = List.replicate k 'v' := by
  induction l with
  | nil => exact ⟨0, rfl⟩
  | cons c rest ih =>
    by_cases hc : c = 'v'
    · obtain ⟨k, hk⟩ := ih
      subst hc
      exact ⟨k + 1, by simp [List.takeWhile_cons, hk, List.replicate]⟩
    · exact ⟨0, by simp [List.takeWhile_cons, hc]⟩

theorem head_dropWhile_v (l : List Char) (c : Char)
    (h : (l.dropWhile (· == 'v')).head? = some c) : c ≠ 'v' := by
  induction l with
  | nil => cases h
  | cons a rest ih =>
    by_cases ha : a = 'v'
    · subst ha
      rw [List.dropWhile_cons, if_pos (by simp)] at h
      exact ih h
    · rw [List.dropWhile_cons, if_neg (by simp [ha])] at h
      simp only [List.head?_cons, Option.some.injEq] at h
      subst h
      exact ha

/-! ## C8: draft / prerelease exclusion -/

/-- C8: for any release whose draft flag or prerelease flag is true,
`generate_appcast_item` produces no item, regardless of its assets or any
other attribute. -/
theorem c8_draft_or_prerelease_yields_no_item (r : Release)
    (h : r.draft = true ∨ r.prerelease = true) :
    generate_appcast_item r = none := by
  unfold generate_appcast_item
  rcases h with h | h <;> simp [h]

/-- Witness for C8 at a concrete draft release that has a valid asset. -/
theorem c8_witness : generate_appcast_item draftRelease = none :=
  c8_draft_or_prerelease_yields_no_item draftRelease (Or.inl rfl)

/-! ## C5: pubDate selection -/

/-- C5: for every release turned into an item, the item's `pubDate` equals
the release's `published_at` timestamp, and equals `created_at` whenever
`published_at` is absent. -/
theorem c5_pubdate_prefers_published_at (r : Release) (i : AppcastItem)
    (h : generate_appcast_item r = some i) :
    (∀ s, r.published_at = some s → i.pubDate = some s) ∧
      (r.published_at = none → i.pubDate = r.created_at) := by
  obtain ⟨-, -, dmg, -, hi⟩ := generate_appcast_item_some h
  subst hi
  constructor
  · intro s hs; simp [mkItem, hs]
  · intro hs; simp [mkItem, hs]

/-- Witness for C5 at a release with no published timestamp: the item's
`pubDate` is the creation timestamp. -/
theorem c5_witness : generate_appcast_item relNoPub = some relNoPubItem ∧
    relNoPubItem.pubDate = relNoPub.created_at :=
  ⟨by decide, (c5_pubdate_prefers_published_at relNoPub relNoPubItem (by decide)).2 rfl⟩

/-! ## C1: version normalization -/

/-- C1 counterexample: the claim says a tag with several leading `v`
characters loses only the first, so tag `"vv1.2.3"` should give version
`"v1.2.3"`; the code's `lstrip('v')` removes every leading `v` and gives
`"1.2.3"`. -/
theorem c1_counterexample :
    (generate_appcast_item relVV).map AppcastItem.version = some "1.2.3" ∧
      ("1.2.3" : String) ≠ "v1.2.3" := by
  constructor <;> decide

/-- C1 (amended): the derived `version` is the tag name with all leading
`v` characters removed (Python `lstrip('v')`) and no other normalization:
the tag splits as a block of `v`s followed by the version, whose first
character (if any) is not `v`; tag `"v1.2.3"` yields `"1.2.3"` and tag
`"2.0.0"` yields `"2.0.0"`. -/
theorem c1_version_strips_all_leading_vs :
    (∀ (r : Release) (i : AppcastItem), generate_appcast_item r = some i →
      ∃ k, r.tag_name.data = List.replicate k 'v' ++ i.version.data ∧
        ∀ c, i.version.data.head? = some c → c ≠ 'v') ∧
      lstripV "v1.2.3" = "1.2.3" ∧ lstripV "2.0.0" = "2.0.0" := by
  refine ⟨?_, by decide, by decide⟩
  intro r i h
  obtain ⟨-, -, dmg, -, hi⟩ := generate_appcast_item_some h
  subst hi
  obtain ⟨k, hk⟩ := takeWhile_v_replicate r.tag_name.data
  refine ⟨k, ?_, fun c hc => head_dropWhile_v _ c hc⟩
  show r.tag_name.data = List.replicate k 'v' ++ r.tag_name.data.dropWhile (· == 'v')
  rw [← hk, List.takeWhile_append_dropWhile]

/-- Witness for C1 at the two-`v` tag. -/
theorem c1_witness :
    ∃ k, relVV.tag_name.data = List.replicate k 'v' ++ relVVItem.version.data ∧
      ∀ c, relVVItem.version.data.head? = some c → c ≠ 'v' :=
  c1_version_strips_all_leading_vs.1 relVV relVVItem (by decide)

/-! ## C4: installer asset selection -/

/-- C4: `find_dmg_asset` returns an asset named exactly `XKey.dmg` when one
is present; otherwise the first asset, in list order, whose name ends with
`.dmg` and does not contain `IM`; otherwise no asset, in which case a
(non-draft, non-prerelease) release yields no item. The three concrete
examples of the claim are included. -/
theorem c4_asset_selection :
    (∀ assets : List Asset, (∃ a ∈ assets, a.name = "XKey.dmg") →
      ∃ b, find_dmg_asset assets = some b ∧ b.name = "XKey.dmg") ∧
    (∀ assets : List Asset, (∀ a ∈ assets, a.name ≠ "XKey.dmg") →
      find_dmg_asset assets =
        assets.find? (fun a => strEndsWith a.name ".dmg" && ! strContainsSub a.name "IM")) ∧
    (∀ assets : List Asset, (∀ a ∈ assets, a.name ≠ "XKey.dmg" ∧
        ¬ (strEndsWith a.name ".dmg" && ! strContainsSub a.name "IM") = true) →
      find_dmg_asset assets = none) ∧
    (∀ r : Release, r.draft = false → r.prerelease = false →
      find_dmg_asset r.assets = none → generate_appcast_item r = none) ∧
    find_dmg_asset [⟨"XKey-old.dmg", "u1", 1⟩, ⟨"XKey.dmg", "u2", 2⟩] =
      some ⟨"XKey.dmg", "u2", 2⟩ ∧
    find_dmg_asset [⟨"XKey_IM.dmg", "u1", 1⟩] = none ∧
    find_dmg_asset [⟨"XKey-beta.dmg", "u1", 1⟩] = some ⟨"XKey-beta.dmg", "u1", 1⟩ := by
  refine ⟨?_, ?_, ?_, ?_, by decide, by decide, by decide⟩
  · rintro assets ⟨a, ha, hname⟩
    cases hf : assets.find? (fun a => a.name == "XKey.dmg") with
    | none =>
      exact absurd (by simp [hname]) (List.find?_eq_none.mp hf a ha)
    | some b =>
      refine ⟨b, ?_, ?_⟩
      · unfold find_dmg_asset; rw [hf]
      · simpa using List.find?_some hf
  · intro assets h
    unfold find_dmg_asset
    rw [List.find?_eq_none.mpr (fun a ha => by simp [h a ha])]
  · intro assets h
    unfold find_dmg_asset
    rw [List.find?_eq_none.mpr (fun a ha => by simp [(h a ha).1]),
      List.find?_eq_none.mpr (fun a ha => (h a ha).2)]
  · intro r h1 h2 hf
    unfold generate_appcast_item
    simp [h1, h2, hf]

/-- Witness for C4: the exact-name rule fires on the first example list. -/
theorem c4_witness :
    ∃ b, find_dmg_asset [⟨"XKey-old.dmg", "u1", 1⟩, ⟨"XKey.dmg", "u2", 2⟩] = some b ∧
      b.name = "XKey.dmg" :=
  c4_asset_selection.1 _ ⟨⟨"XKey.dmg", "u2", 2⟩, by decide, rfl⟩

/-! ## Sorting lemmas -/

theorem charListLt_irrefl : ∀ l : List Char, charListLt l l = false
  | [] => rfl
  | a :: as => by
    unfold charListLt
    rw [if_neg (lt_irrefl a), if_neg (lt_irrefl a)]
    exact charListLt_irrefl as

theorem charListLt_asymm : ∀ {as bs : List Char},
    charListLt as bs = true → charListLt bs as = false
  | [], [], h => by cases h
  | [], _ :: _, _ => rfl
  | _ :: _, [], h => by cases h
  | a :: as, b :: bs, h => by
    unfold charListLt at h ⊢
    by_cases hab : a < b
    · rw [if_neg (lt_asymm hab), if_pos hab]
    · rw [if_neg hab] at h
      by_cases hba : b < a
      · rw [if_pos hba] at h; cases h
      · rw [if_neg hba] at h
        rw [if_neg hba, if_neg hab]
        exact charListLt_asymm h

theorem charListLt_nil_right : ∀ as : List Char, charListLt as [] = false
  | [] => rfl
  | _ :: _ => rfl

theorem charListLt_notLt_trans : ∀ {as bs cs : List Char},
    charListLt as bs = false → charListLt bs cs = false → charListLt as cs = false
  | as, _, [], _, _ => charListLt_nil_right as
  | [], [], _ :: _, _, hbc => hbc
  | [], _ :: _, _ :: _, hab, _ => by simp [charListLt] at hab
  | _ :: _, [], _ :: _, _, hbc => by simp [charListLt] at hbc
  | a :: as, b :: bs, c :: cs, hab, hbc => by
    unfold charListLt at hab hbc ⊢
    have hba : ¬ a < b := fun h => by rw [if_pos h] at hab; cases hab
    have hcb : ¬ b < c := fun h => by rw [if_pos h] at hbc; cases hbc
    have hac : ¬ a < c := not_lt.mpr (le_trans (not_lt.mp hcb) (not_lt.mp hba))
    rw [if_neg hac]
    by_cases hca : c < a
    · rw [if_pos hca]
    · rw [if_neg hca]
      have heq_ba : b = a :=
        le_antisymm (not_lt.mp hba) (le_trans (not_lt.mp hca) (not_lt.mp hcb))
      subst heq_ba
      have heq_bc : b = c := le_antisymm (not_lt.mp hca) (not_lt.mp hcb)
      subst heq_bc
      simp only [if_neg (lt_irrefl b)] at hab hbc
      exact charListLt_notLt_trans hab hbc

/-- The executable comparison agrees with Lean's lexicographic order on
character lists (hence, through `String.lt_iff_toList_lt`, with the `String`
order). -/
theorem charListLt_iff_lt : ∀ (as bs : List Char), charListLt as bs = true ↔ as < bs
  | [], [] => by
    constructor
    · intro h; cases h
    · intro h; cases h
  | [], b :: bs => ⟨fun _ => List.Lex.nil, fun _ => rfl⟩
  | a :: as, [] => by
    constructor
    · intro h; cases h
    · intro h; cases h
  | a :: as, b :: bs => by
    unfold charListLt
    by_cases hab : a < b
    · rw [if_pos hab]
      exact ⟨fun _ => List.Lex.rel hab, fun _ => rfl⟩
    · rw [if_neg hab]
      by_cases hba : b < a
      · rw [if_pos hba]
        constructor
        · intro h; cases h
        · intro h
          cases h with
          | cons _ => exact absurd hba (lt_irrefl a)
          | rel h => exact absurd h hab
      · rw [if_neg hba]
        have heq : a = b := le_antisymm (not_lt.mp hba) (not_lt.mp hab)
        subst heq
        constructor
        · intro h; exact List.Lex.cons ((charListLt_iff_lt as bs).mp h)
        · intro h
          cases h with
          | cons h => exact (charListLt_iff_lt as bs).mpr h
          | rel h => exact absurd h (lt_irrefl a)

theorem pubLt_irrefl (a : Option String) : pubLt a a = false := by
  cases a with
  | none => rfl
  | some s => exact charListLt_irrefl s.data

theorem pubLt_asymm {a b : Option String} (h : pubLt a b = true) : pubLt b a = false := by
  cases a with
  | none => cases b with
    | none => cases h
    | some t => rfl
  | some s =>
    cases b with
    | none => cases h
    | some t => exact charListLt_asymm h

theorem pubLt_notLt_trans {a b c : Option String} (hab : pubLt a b = false)
    (hbc : pubLt b c = false) : pubLt a c = false := by
  cases a with
  | none =>
    cases c with
    | none => rfl
    | some u =>
      cases b with
      | none => cases hbc
      | some t => cases hab
  | some s =>
    cases c with
    | none => rfl
    | some u =>
      cases b with
      | none => cases hbc
      | some t => exact charListLt_notLt_trans hab hbc

theorem mem_insertDesc {a x : AppcastItem} : ∀ {l : List AppcastItem},
    a ∈ insertDesc x l ↔ a = x ∨ a ∈ l := by
  intro l
  induction l with
  | nil => simp [insertDesc]
  | cons y ys ih =>
    unfold insertDesc
    by_cases hc : pubLt x.pubDate y.pubDate = true
    · rw [if_pos hc, List.mem_cons, ih, List.mem_cons]
      tauto
    · rw [if_neg hc]
      exact List.mem_cons

theorem mem_sortDesc {a : AppcastItem} : ∀ {l : List AppcastItem},
    a ∈ sortDesc l ↔ a ∈ l := by
  intro l
  induction l with
  | nil => simp [sortDesc]
  | cons x xs ih =>
    show a ∈ insertDesc x (sortDesc xs) ↔ _
    rw [mem_insertDesc, ih]
    simp

theorem insertDesc_cons (x y : AppcastItem) (ys : List AppcastItem) :
    insertDesc x (y :: ys) =
      if pubLt x.pubDate y.pubDate then y :: insertDesc x ys else x :: y :: ys := rfl

/-- The head of the descending sort is an element whose `pubDate` key is not
below any other element's key. -/
theorem sortDesc_head_max : ∀ (l : List AppcastItem), l ≠ [] →
    ∃ m t, sortDesc l = m :: t ∧ m ∈ l ∧
      ∀ y ∈ l, pubLt m.pubDate y.pubDate = false := by
  intro l
  induction l with
  | nil => intro h; exact absurd rfl h
  | cons a l ih =>
    intro _
    by_cases hl : l = []
    · subst hl
      exact ⟨a, [], rfl, List.mem_singleton_self a, by
        intro y hy
        rw [List.mem_singleton] at hy
        subst hy
        exact pubLt_irrefl _⟩
    · obtain ⟨m, t, heq, hmem, hmax⟩ := ih hl
      have hstep : sortDesc (a :: l) = insertDesc a (m :: t) := by
        show insertDesc a (sortDesc l) = _
        rw [heq]
      by_cases hc : pubLt a.pubDate m.pubDate = true
      · refine ⟨m, insertDesc a t, ?_, List.mem_cons_of_mem a hmem, ?_⟩
        · rw [hstep, insertDesc_cons, if_pos hc]
        · intro y hy
          rcases List.mem_cons.mp hy with hy | hy
          · subst hy; exact pubLt_asymm hc
          · exact hmax y hy
      · refine ⟨a, m :: t, ?_, List.mem_cons_self a l, ?_⟩
        · rw [hstep, insertDesc_cons, if_neg hc]
        · intro y hy
          rcases List.mem_cons.mp hy with hy | hy
          · subst hy; exact pubLt_irrefl _
          · exact pubLt_notLt_trans (Bool.eq_false_iff.mpr hc) (hmax y hy)

theorem generate_appcast_ok {releases : List Release} {existing : Option PriorAppcast}
    {ac : Appcast} (h : generate_appcast releases existing = .ok ac) :
    ∃ m, sigMapOf existing = .ok m ∧
      ac.items = truncateLatest (sortDesc (buildItems m releases)) := by
  unfold generate_appcast at h
  cases hs : sigMapOf existing with
  | error e => rw [hs] at h; cases h
  | ok m =>
    rw [hs] at h
    refine ⟨m, rfl, ?_⟩
    have := Except.ok.inj h
    rw [← this]

/-! ## C2: single newest item -/

/-- C2: the generated document's `items` has length at most 1; when the
produced-items list is empty so is `items`; and when it is non-empty,
`items` is exactly one produced item whose `pubDate` is greatest — under
plain lexicographic string comparison — among all produced items, the others
being discarded. -/
theorem c2_single_newest_item (releases : List Release) (existing : Option PriorAppcast)
    (ac : Appcast) (m : List (String × String))
    (hok : generate_appcast releases existing = .ok ac)
    (hm : sigMapOf existing = .ok m) :
    ac.items.length ≤ 1 ∧
    (buildItems m releases = [] → ac.items = []) ∧
    (buildItems m releases ≠ [] →
      ∃ top, ac.items = [top] ∧ top ∈ buildItems m releases ∧
        ∀ x ∈ buildItems m releases, ∀ sx st,
          x.pubDate = some sx → top.pubDate = some st → sx ≤ st) := by
  obtain ⟨m', hm', hitems⟩ := generate_appcast_ok hok
  rw [hm] at hm'
  cases Except.ok.inj hm'
  refine ⟨?_, ?_, ?_⟩
  · rw [hitems]
    cases hs : sortDesc (buildItems m releases) <;> simp [truncateLatest, hs]
  · intro hempty
    rw [hitems, hempty]
    rfl
  · intro hne
    obtain ⟨top, t, heq, hmem, hmax⟩ := sortDesc_head_max _ hne
    refine ⟨top, ?_, hmem, ?_⟩
    · rw [hitems, heq]; rfl
    · intro x hx sx st hsx hst
      have hfalse := hmax x hx
      rw [hst, hsx] at hfalse
      refine not_lt.mp (fun hlt : st < sx => ?_)
      have hlt' : charListLt st.data sx.data = true :=
        (charListLt_iff_lt st.data sx.data).mpr (String.lt_iff_toList_lt.mp hlt)
      have hfalse' : charListLt st.data sx.data = false := hfalse
      rw [hlt'] at hfalse'
      cases hfalse'

/-- Witness for C2: three qualifying releases with distinct publish dates
produce a single-item document containing the newest item. -/
theorem c2_witness :
    demoAppcast.items.length ≤ 1 ∧
      ∃ top, demoAppcast.items = [top] ∧ top ∈ buildItems [] demoReleases ∧
        ∀ x ∈ buildItems [] demoReleases, ∀ sx st,
          x.pubDate = some sx → top.pubDate = some st → sx ≤ st := by
  have h := c2_single_newest_item demoReleases none demoAppcast [] (by decide) rfl
  exact ⟨h.1, h.2.2 (by decide)⟩

/-! ## Signature-map lemmas -/

theorem buildSignatureMap_ok : ∀ (pis : List PriorItem) (acc m : List (String × String)),
    buildSignatureMap pis acc = .ok m → m = (priorSigPairs pis).reverse ++ acc := by
  intro pis
  induction pis with
  | nil =>
    intro acc m h
    rw [← Except.ok.inj h]
    simp [priorSigPairs]
  | cons it rest ih =>
    intro acc m h
    obtain ⟨ver, encl⟩ := it
    cases encl with
    | none =>
      rw [ih acc m h]
      simp [priorSigPairs, List.filterMap_cons]
    | some enc =>
      obtain ⟨esig⟩ := enc
      cases esig with
      | none =>
        rw [ih acc m h]
        simp [priorSigPairs, List.filterMap_cons]
      | some sig =>
        cases ver with
        | none =>
          exact Except.noConfusion
            (show (Except.error () : Except Unit (List (String × String))) = .ok m from h)
        | some v =>
          rw [ih (dictInsert acc v sig) m h]
          simp [priorSigPairs, List.filterMap_cons, dictInsert]

theorem buildSignatureMap_error : ∀ (pis : List PriorItem) (acc : List (String × String))
    (it : PriorItem) (enc : PriorEnclosure) (sig : String), it ∈ pis →
    it.enclosure = some enc → enc.edSignature = some sig → it.version = none →
    buildSignatureMap pis acc = .error () := by
  intro pis
  induction pis with
  | nil => intro acc it enc sig hmem _ _ _; cases hmem
  | cons hd rest ih =>
    intro acc it enc sig hmem henc hsig hver
    rcases List.mem_cons.mp hmem with rfl | hmem'
    · obtain ⟨ver, encl⟩ := it
      obtain rfl : encl = some enc := henc
      obtain ⟨esig⟩ := enc
      obtain rfl : esig = some sig := hsig
      obtain rfl : ver = none := hver
      rfl
    · obtain ⟨ver, encl⟩ := hd
      cases encl with
      | none => exact ih acc it enc sig hmem' henc hsig hver
      | some e =>
        obtain ⟨es⟩ := e
        cases es with
        | none => exact ih acc it enc sig hmem' henc hsig hver
        | some s =>
          cases ver with
          | none => rfl
          | some v => exact ih (dictInsert acc v s) it enc sig hmem' henc hsig hver

theorem mem_truncateLatest {i : AppcastItem} : ∀ {l : List AppcastItem},
    i ∈ truncateLatest l → i ∈ l
  | [], h => absurd h (by simp [truncateLatest])
  | x :: xs, h => by
    have : i = x := List.mem_singleton.mp h
    rw [this]
    exact List.mem_cons_self x xs

theorem mem_buildItems {m : List (String × String)} : ∀ {releases : List Release}
    {i : AppcastItem}, i ∈ buildItems m releases →
    ∃ r ∈ releases, ∃ i0, generate_appcast_item r = some i0 ∧ i = withSig m i0 := by
  intro releases
  induction releases with
  | nil => intro i h; cases h
  | cons r rest ih =>
    intro i h
    unfold buildItems at h
    cases hg : generate_appcast_item r with
    | none =>
      rw [hg] at h
      obtain ⟨r', hr', hrest⟩ := ih h
      exact ⟨r', List.mem_cons_of_mem _ hr', hrest⟩
    | some i0 =>
      rw [hg] at h
      rcases List.mem_cons.mp h with rfl | h'
      · exact ⟨r, List.mem_cons_self r rest, i0, hg, rfl⟩
      · obtain ⟨r', hr', hrest⟩ := ih h'
        exact ⟨r', List.mem_cons_of_mem _ hr', hrest⟩

theorem withSig_version (m : List (String × String)) (i : AppcastItem) :
    (withSig m i).version = i.version := by
  unfold withSig
  cases dictFind m i.version <;> rfl

theorem withSig_edSignature (m : List (String × String)) (i : AppcastItem)
    (h : i.enclosure.edSignature = none) :
    (withSig m i).enclosure.edSignature = dictFind m i.version := by
  unfold withSig
  cases hd : dictFind m i.version with
  | none => exact h
  | some sig => rfl

theorem priorSigPairs_mem {pis : List PriorItem} {p : String × String}
    (h : p ∈ priorSigPairs pis) :
    ∃ pit ∈ pis, pit.version = some p.1 ∧
      ∃ enc, pit.enclosure = some enc ∧ enc.edSignature = some p.2 := by
  unfold priorSigPairs at h
  obtain ⟨pit, hmem, hf⟩ := List.mem_filterMap.mp h
  obtain ⟨ver, encl⟩ := pit
  cases encl with
  | none => exact Option.noConfusion (show none = some p from hf)
  | some enc =>
    obtain ⟨esig⟩ := enc
    cases esig with
    | none =>
      cases ver <;>
        exact Option.noConfusion (show none = some p from hf)
    | some sig =>
      cases ver with
      | none => exact Option.noConfusion (show none = some p from hf)
      | some v =>
        obtain rfl : (v, sig) = p := Option.some.inj hf
        exact ⟨⟨some v, some ⟨some sig⟩⟩, hmem, rfl, ⟨some sig⟩, rfl, rfl⟩

/-! ## C3: signature preservation -/

/-- C3 counterexample: with a prior document holding two items for version
`1.0.0` carrying signatures `A` then `B`, the regenerated item for `1.0.0`
carries `B` — yet the prior document does have an item with matching version
recording `A`, so the claimed biconditional fails for `S = "A"`. -/
theorem c3_counterexample :
    (∃ pit ∈ priorDup.items.getD [], pit.version = some "1.0.0" ∧
      pit.enclosure = some { edSignature := some "A" }) ∧
    generate_appcast [demoRelease100] (some priorDup) = .ok dupAppcast ∧
    dupAppcast.items.map (fun j => j.version) = ["1.0.0"] ∧
    dupAppcast.items.map (fun j => j.enclosure.edSignature) = [some "B"] ∧
    (some "B" : Option String) ≠ some "A" := by
  refine ⟨?_, by decide, by decide, by decide, by decide⟩
  exact ⟨{ version := some "1.0.0", enclosure := some { edSignature := some "A" } },
    by decide, by decide, by decide⟩

/-- C3 (amended): an item of the regenerated feed carries exactly the
signature recorded by the *last* prior item whose `version` equals the new
item's version and whose enclosure records a signature (later duplicate
versions overwrite earlier ones in the lookup); any carried signature does
come from some matching prior item, the generator never computes one, and
when no prior entry matches the new item's version the enclosure has no
`edSignature` at all. -/
theorem c3_signature_copied_from_last_matching_prior (releases : List Release)
    (prior : PriorAppcast) (pis : List PriorItem) (ac : Appcast) (i : AppcastItem)
    (hitems : prior.items = some pis)
    (hok : generate_appcast releases (some prior) = .ok ac)
    (hi : i ∈ ac.items) :
    i.enclosure.edSignature = lastSigFor pis i.version ∧
    (∀ S, i.enclosure.edSignature = some S →
      ∃ pit ∈ pis, pit.version = some i.version ∧
        ∃ enc, pit.enclosure = some enc ∧ enc.edSignature = some S) ∧
    ((∀ p ∈ priorSigPairs pis, p.1 ≠ i.version) → i.enclosure.edSignature = none) := by
  obtain ⟨pitems⟩ := prior
  obtain rfl : pitems = some pis := hitems
  obtain ⟨m, hm, hacitems⟩ := generate_appcast_ok hok
  have hm' : buildSignatureMap pis [] = .ok m := hm
  have hmeq : m = (priorSigPairs pis).reverse := by
    rw [buildSignatureMap_ok pis [] m hm', List.append_nil]
  rw [hacitems] at hi
  have hib : i ∈ buildItems m releases := mem_sortDesc.mp (mem_truncateLatest hi)
  obtain ⟨r, hr, i0, hg, hi0⟩ := mem_buildItems hib
  obtain ⟨-, -, dmg, -, hmk⟩ := generate_appcast_item_some hg
  have hbase : i0.enclosure.edSignature = none := by rw [hmk]; rfl
  have hsig_eq : i.enclosure.edSignature = dictFind m i0.version := by
    rw [hi0]; exact withSig_edSignature m i0 hbase
  have hver_eq : i.version = i0.version := by rw [hi0]; exact withSig_version m i0
  have hkey : i.enclosure.edSignature = lastSigFor pis i.version := by
    rw [hsig_eq, hmeq, hver_eq]
    rfl
  refine ⟨hkey, ?_, ?_⟩
  · intro S hS
    rw [hkey] at hS
    unfold lastSigFor at hS
    obtain ⟨p, hfind, hp2⟩ := Option.map_eq_some'.mp hS
    have hp_mem : p ∈ priorSigPairs pis :=
      List.mem_reverse.mp (List.mem_of_find?_eq_some hfind)
    have hp1 : p.1 = i.version := by simpa using List.find?_some hfind
    obtain ⟨pit, hpit, hpver, enc, henc, hesig⟩ := priorSigPairs_mem hp_mem
    exact ⟨pit, hpit, by rw [hpver, hp1], enc, henc, by rw [hesig, hp2]⟩
  · intro hnone
    rw [hkey]
    unfold lastSigFor
    rw [List.find?_eq_none.mpr (fun p hp => by
      simp only [beq_iff_eq]
      exact hnone p (List.mem_reverse.mp hp))]
    rfl

/-- Witness for C3 at the claim's own example: prior version `1.0.0` with
signature `ABC`, newest qualifying release `1.0.0`. -/
theorem c3_witness :
    abcItem.enclosure.edSignature =
      lastSigFor [{ version := some "1.0.0", enclosure := some { edSignature := some "ABC" } }]
        abcItem.version :=
  (c3_signature_copied_from_last_matching_prior [demoRelease100] priorABC _ abcAppcast abcItem
    rfl (by decide) (by decide)).1

/-! ## C10: missing version key aborts generation -/

/-- C10: if the supplied prior document's `items` list contains an entry
whose enclosure carries an `edSignature` but which has no `version` field,
building the signature lookup raises `KeyError` — the malformed entry is not
skipped — and the whole generation aborts. -/
theorem c10_contributing_item_without_version_aborts (releases : List Release)
    (prior : PriorAppcast) (pis : List PriorItem) (it : PriorItem) (enc : PriorEnclosure)
    (sig : String) (hitems : prior.items = some pis) (hmem : it ∈ pis)
    (henc : it.enclosure = some enc) (hsig : enc.edSignature = some sig)
    (hver : it.version = none) :
    generate_appcast releases (some prior) = .error () := by
  have herr : buildSignatureMap pis [] = .error () :=
    buildSignatureMap_error pis [] it enc sig hmem henc hsig hver
  obtain ⟨pitems⟩ := prior
  obtain rfl : pitems = some pis := hitems
  have hsm : sigMapOf (some (⟨some pis⟩ : PriorAppcast)) = .error () := herr
  unfold generate_appcast
  rw [hsm]

/-- Witness for C10 at `priorBad`. -/
theorem c10_witness : generate_appcast [] (some priorBad) = .error () :=
  c10_contributing_item_without_version_aborts [] priorBad
    [{ version := none, enclosure := some { edSignature := some "S" } }]
    { version := none, enclosure := some { edSignature := some "S" } }
    { edSignature := some "S" } "S" rfl (List.mem_cons_self _ _) rfl rfl rfl

/-! ## Markdown lemmas -/

theorem isPrefixOf_append_self : ∀ (p t : List Char), p.isPrefixOf (p ++ t) = true
  | [], _ => by simp [List.isPrefixOf]
  | c :: p, t => by simp [List.isPrefixOf, isPrefixOf_append_self p t]

theorem splitLines_no_newline (l : List Char) (h : ∀ c ∈ l, c ≠ '\n') :
    splitLines l = [l] := by
  induction l with
  | nil => rfl
  | cons c rest ih =>
    have hc : (c == '\n') = false := by
      simpa using h c (List.mem_cons_self c rest)
    have hrest := ih (fun x hx => h x (List.mem_cons_of_mem _ hx))
    simp [splitLines, hc, hrest]

theorem joinLines_singleton (l : List Char) : joinLines [l] = l := by
  simp [joinLines, List.intercalate]

theorem headerPass_single (pfx opn cls l : List Char) (h : ∀ c ∈ l, c ≠ '\n') :
    headerPass pfx opn cls l = lineHeader pfx opn cls l := by
  unfold headerPass
  rw [splitLines_no_newline l h]
  simp [joinLines_singleton]

theorem isPrefixOf_cons_ne {a b : Char} (h : (a == b) = false) (p l : List Char) :
    (a :: p).isPrefixOf (b :: l) = false := by
  simp only [List.isPrefixOf, h, Bool.false_and]

/-- On a newline-free line starting with `"### "`, the three header passes
applied in source order produce an `<h3>` element: the `### ` rule fires
first, and the resulting line no longer matches the `## ` or `# ` rules. -/
theorem headerPasses_h3_line (t : List Char) (h : '\n' ∉ t) :
    headerPasses ("### ".data ++ t) = "<h3>".data ++ t ++ "</h3>".data := by
  have hline : ∀ c ∈ "### ".data ++ t, c ≠ '\n' := by
    intro c hc he
    subst he
    rcases List.mem_append.mp hc with hc | hc
    · exact absurd hc (by decide)
    · exact h hc
  have hres : ∀ c ∈ "<h3>".data ++ t ++ "</h3>".data, c ≠ '\n' := by
    intro c hc he
    subst he
    rcases List.mem_append.mp hc with hc | hc
    · rcases List.mem_append.mp hc with hc | hc
      · exact absurd hc (by decide)
      · exact h hc
    · exact absurd hc (by decide)
  have h3 : headerPass "### ".data "<h3>".data "</h3>".data ("### ".data ++ t) =
      "<h3>".data ++ t ++ "</h3>".data := by
    rw [headerPass_single _ _ _ _ hline]
    unfold lineHeader
    rw [if_pos (isPrefixOf_append_self _ _), List.drop_left]
  have hcons : "<h3>".data ++ t ++ "</h3>".data =
      '<' :: ('h' :: '3' :: '>' :: (t ++ "</h3>".data)) := rfl
  have hpfx2 : ("## ".data).isPrefixOf ("<h3>".data ++ t ++ "</h3>".data) = false := by
    rw [hcons]
    exact isPrefixOf_cons_ne (by decide) _ _
  have hpfx1 : ("# ".data).isPrefixOf ("<h3>".data ++ t ++ "</h3>".data) = false := by
    rw [hcons]
    exact isPrefixOf_cons_ne (by decide) _ _
  have hneg2 : ¬ ("## ".data).isPrefixOf ("<h3>".data ++ t ++ "</h3>".data) = true := by
    rw [hpfx2]
    exact Bool.false_ne_true
  have hneg1 : ¬ ("# ".data).isPrefixOf ("<h3>".data ++ t ++ "</h3>".data) = true := by
    rw [hpfx1]
    exact Bool.false_ne_true
  have h2 : headerPass "## ".data "<h2>".data "</h2>".data ("<h3>".data ++ t ++ "</h3>".data) =
      "<h3>".data ++ t ++ "</h3>".data := by
    rw [headerPass_single _ _ _ _ hres]
    unfold lineHeader
    rw [if_neg hneg2]
  have h1 : headerPass "# ".data "<h1>".data "</h1>".data ("<h3>".data ++ t ++ "</h3>".data) =
      "<h3>".data ++ t ++ "</h3>".data := by
    rw [headerPass_single _ _ _ _ hres]
    unfold lineHeader
    rw [if_neg hneg1]
  show headerPass "# ".data "<h1>".data "</h1>".data
      (headerPass "## ".data "<h2>".data "</h2>".data
        (headerPass "### ".data "<h3>".data "</h3>".data ("### ".data ++ t))) = _
  rw [h3, h2, h1]

theorem ne_of_second_char {a b c d : Char} {xs ys : List Char} (h : (b == d) = false) :
    a :: b :: xs ≠ c :: d :: ys := by
  intro he
  injection he with h1 h2
  injection h2 with h3 _
  rw [h3] at h
  simp at h

theorem li_beq_ul (Y : List Char) : ("<li>".data ++ Y == "<ul>".data) = false :=
  beq_eq_false_iff_ne.mpr (ne_of_second_char (by decide))

theorem li_beq_ulClose (Y : List Char) : ("<li>".data ++ Y == "</ul>".data) = false :=
  beq_eq_false_iff_ne.mpr (ne_of_second_char (by decide))

theorem p_beq_ul (Y : List Char) : ("<p>".data ++ Y == "<ul>".data) = false :=
  beq_eq_false_iff_ne.mpr (ne_of_second_char (by decide))

theorem p_beq_ulClose (Y : List Char) : ("<p>".data ++ Y == "</ul>".data) = false :=
  beq_eq_false_iff_ne.mpr (ne_of_second_char (by decide))

/-- Every `<ul>` line the list scan emits is matched by a `</ul>` line (plus
one more closer when the scan starts inside an open list): no unordered-list
block is left dangling, whatever the input. -/
theorem listPass_ul_balance : ∀ (lines : List (List Char)) (inUl inOl : Bool),
    (listPass lines inUl inOl).count "</ul>".data =
      (listPass lines inUl inOl).count "<ul>".data + (if inUl then 1 else 0) := by
  intro lines
  induction lines with
  | nil => intro inUl inOl; cases inUl <;> cases inOl <;> decide
  | cons line rest ih =>
    intro inUl inOl
    unfold listPass
    by_cases hul : isUlLine line = true
    · rw [if_pos hul]
      have hih := ih true inOl
      cases inUl <;>
        simp [List.count_cons, List.count_append, li_beq_ul, li_beq_ulClose, hih]
    · rw [if_neg hul]
      cases hol : olPrefixLength line with
      | some n =>
        have hih := ih inUl true
        cases inOl <;>
          simp [List.count_cons, List.count_append, li_beq_ul, li_beq_ulClose, hih]
      | none =>
        have hih := ih false false
        by_cases hp : (stripChars line).isEmpty = true
        · rw [if_pos hp]
          cases inUl <;> cases inOl <;>
            simp [List.count_cons, List.count_append, hih]
        · rw [if_neg hp]
          cases inUl <;> cases inOl <;>
            simp [List.count_cons, List.count_append, p_beq_ul, p_beq_ulClose, hih]

/-! ## C6: list conversion -/

/-- C6 counterexample: the scan's output lines are joined with newline
characters (`'\n'.join(result)`), so the conversion of
`"- item one\n- item two"` is not the claimed concatenation without
newlines. -/
theorem c6_counterexample :
    markdown_to_html "- item one\n- item two" ≠
      "<ul><li>item one</li><li>item two</li></ul>" := by
  decide

/-- C6 (amended): the conversion of `"- item one\n- item two"` is
`"<ul>\n<li>item one</li>\n<li>item two</li>\n</ul>"` — the same elements,
joined by newlines. A line matching an unordered-list marker opens a `<ul>`
block if one is not already open and becomes an `<li>` whose text is the
line with its leading two characters stripped and the remainder trimmed; and
every opened list block is closed: for every input the scan emits as many
`</ul>` lines as `<ul>` lines. -/
theorem c6_list_conversion :
    markdown_to_html "- item one\n- item two" =
      "<ul>\n<li>item one</li>\n<li>item two</li>\n</ul>" ∧
    (∀ (line : List Char) (rest : List (List Char)) (inOl : Bool), isUlLine line = true →
      listPass (line :: rest) false inOl =
        "<ul>".data :: ("<li>".data ++ stripChars (line.drop 2) ++ "</li>".data) ::
          listPass rest true inOl) ∧
    (∀ (line : List Char) (rest : List (List Char)) (inOl : Bool), isUlLine line = true →
      listPass (line :: rest) true inOl =
        ("<li>".data ++ stripChars (line.drop 2) ++ "</li>".data) :: listPass rest true inOl) ∧
    (∀ s : String, (mdLines s).count "</ul>".data = (mdLines s).count "<ul>".data) := by
  refine ⟨by decide, ?_, ?_, ?_⟩
  · intro line rest inOl h
    conv_lhs => rw [listPass]
    rw [if_pos h]
    simp
  · intro line rest inOl h
    conv_lhs => rw [listPass]
    rw [if_pos h]
    simp
  · intro s
    have h := listPass_ul_balance (splitLines (inlinePasses s.data)) false false
    simpa [mdLines] using h

/-- Witness for C6: the opening rule instantiated on the first example
line. -/
theorem c6_witness :
    listPass ["- item one".data] false false =
      "<ul>".data :: ("<li>".data ++ stripChars ("- item one".data.drop 2) ++ "</li>".data) ::
        listPass [] true false :=
  c6_list_conversion.2.1 "- item one".data [] false (by decide)

/-! ## C7: headers and emphasis -/

/-- C7: the conversion of `"# Title\n**bold** and *italic*"` contains
`<h1>Title</h1>` followed by a paragraph containing
`<strong>bold</strong> and <em>italic</em>` (the exact output and its
decomposition are given), and the header rules are applied `### `, `## `,
`# ` in that order, so a `### `-prefixed line becomes an `<h3>` element and
is never captured by the `# ` rule. -/
theorem c7_headers_and_emphasis :
    markdown_to_html "# Title\n**bold** and *italic*" =
      "<p><h1>Title</h1></p>\n<p><strong>bold</strong> and <em>italic</em></p>" ∧
    ("<p><h1>Title</h1></p>\n<p><strong>bold</strong> and <em>italic</em></p>" : String) =
      "<p>" ++ "<h1>Title</h1>" ++ "</p>\n" ++
        "<p>" ++ "<strong>bold</strong> and <em>italic</em>" ++ "</p>" ∧
    (∀ t : List Char, '\n' ∉ t →
      headerPasses ("### ".data ++ t) = "<h3>".data ++ t ++ "</h3>".data) :=
  ⟨by decide, by decide, headerPasses_h3_line⟩

/-- Witness for C7's header-order clause at a concrete newline-free line. -/
theorem c7_witness :
    headerPasses ("### ".data ++ "Header".data) =
      "<h3>".data ++ "Header".data ++ "</h3>".data :=
  c7_headers_and_emphasis.2.2 "Header".data (by decide)

/-! ## C9: missing body handling -/

theorem releaseNotesOf_empty (r : Release) (h : r.body = none ∨ r.body = some "") :
    releaseNotesOf r = "" := by
  unfold releaseNotesOf
  rcases h with h | h <;> rw [h] <;> rfl

theorem releaseNotesOf_link_only_when_nonempty (r : Release) :
    releaseNotesOf r = "" ∨
      ∃ base, base ≠ "" ∧ releaseNotesOf r = base ++ githubLinkPara r.html_url := by
  unfold releaseNotesOf
  by_cases h1 : r.body.getD "" = ""
  · left; simp [h1]
  · by_cases h2 : markdown_to_html (r.body.getD "") = ""
    · left; simp [h1, h2]
    · right; exact ⟨markdown_to_html (r.body.getD ""), h2, by simp [h1, h2]⟩

/-- C9: a release whose body is absent or empty yields an item with empty
`releaseNotesHTML` and no appended link paragraph; in general the link
paragraph is appended exactly when the rendered HTML is non-empty, and the
Markdown conversion maps the empty string to the empty string. -/
theorem c9_empty_body_gives_empty_notes :
    (∀ (r : Release) (i : AppcastItem), (r.body = none ∨ r.body = some "") →
      generate_appcast_item r = some i → i.releaseNotesHTML = "") ∧
    (∀ (r : Release) (i : AppcastItem), generate_appcast_item r = some i →
      i.releaseNotesHTML = "" ∨
      ∃ base, base ≠ "" ∧ i.releaseNotesHTML = base ++ githubLinkPara r.html_url) ∧
    markdown_to_html "" = "" := by
  refine ⟨?_, ?_, by decide⟩
  · intro r i hbody h
    obtain ⟨-, -, dmg, -, hi⟩ := generate_appcast_item_some h
    rw [hi]
    exact releaseNotesOf_empty r hbody
  · intro r i h
    obtain ⟨-, -, dmg, -, hi⟩ := generate_appcast_item_some h
    rw [hi]
    exact releaseNotesOf_link_only_when_nonempty r

/-- Witness for C9 at a release with no body. -/
theorem c9_witness :
    generate_appcast_item relNoPub = some relNoPubItem ∧
      relNoPubItem.releaseNotesHTML = "" :=
  ⟨by decide, c9_empty_body_gives_empty_notes.1 relNoPub relNoPubItem (Or.inl rfl) (by decide)⟩

end XKeyAppcast
